import Mathlib

/-!
Shallow embedding of the NoctaVox audio-visualization core:
the sample tap (src/voxio/src/engine/tap.rs) and the spectrum engine
(src/noctavox/src/ui_state/spectrum.rs).

Audio samples (`f32` in the source) are modelled as exact rationals `ℚ`;
all claims settled here are about control flow, data movement and order
relations, none about floating-point rounding.

The tap's ring channel (the `rtrb` producer/consumer pair) is modelled as
a fixed-capacity FIFO queue of samples, oldest first.  The writer handle
mutates it through `TapModel.push`, the reader handle through
`TapModel.get_latest`; the sequential semantics of the `rtrb` chunk API
(`slots`, `write_chunk_uninit`/`fill_from_iter`, `read_chunk`/`commit_all`)
is ordinary queue append / take / drop.
-/

unseal Rat.ofScientific Rat.mul Rat.inv Rat.add Rat.sub

namespace NoctaVox

/-- The ring channel shared by `TapWriter` and `TapReader`:
`capacity` is the declared capacity stored in the reader,
`queue` the samples currently buffered, oldest first. -/
structure TapModel where
  capacity : ℕ
  queue : List ℚ
  deriving DecidableEq, Repr

namespace TapModel

/-- `TapWriter::push` (tap.rs lines 24-34): `available = producer.slots()`;
if zero, drop the whole batch; otherwise write the newest
`to_write = min(samples.len(), available)` samples, skipping the oldest
`skip = samples.len() - to_write` samples of the batch. -/
def push (t : TapModel) (samples : List ℚ) : TapModel :=
  let available := t.capacity - t.queue.length
  if available = 0 then t
  else
    let to_write := min samples.length available
    let skip := samples.length - to_write
    { t with queue := t.queue ++ samples.drop skip }

/-- `TapReader::get_latest` (tap.rs lines 40-70): clamp the request to the
declared capacity, return empty if nothing is queued, otherwise first
discard (`read_chunk(skip); commit_all()`) the oldest
`available - output_len` samples when more are queued than requested,
then read `to_read = slots().min(output_len)` samples in order and commit
them.  Returns the output sequence paired with the channel state after
the call. -/
def get_latest (t : TapModel) (amount : ℕ) : List ℚ × TapModel :=
  let output_len := min amount t.capacity
  let available := t.queue.length
  if available = 0 then ([], t)
  else
    let q1 := if output_len < available
      then t.queue.drop (available - output_len)
      else t.queue
    let to_read := min q1.length output_len
    if to_read = 0 then ([], { t with queue := q1 })
    else (q1.take to_read, { t with queue := q1.drop to_read })

end TapModel

/-- Modelled from the spec: the constant `TAP_BUFFER_CAPACITY` is declared
in the noctavox crate root, which is outside the provided sources; the
spec only calls it "a fixed tap capacity" without fixing a number.  Every
universal theorem below holds for any positive value; 1024 is used so the
concrete witnesses and counterexamples can be evaluated. -/
def TAP_BUFFER_CAPACITY : ℕ := 1024

/-- `SpectrumState` (spectrum.rs lines 5-11). -/
structure SpectrumState where
  bins : List ℚ
  decay_factor : ℚ
  bands : List (ℚ × ℚ)
  band_peaks : List ℚ
  sample_rate : ℕ
  deriving DecidableEq, Repr

/-- Recursion core for `chunksExact`.  The `fuel` argument only makes the
recursion structural (hence kernel-reducible): every step consumes
`c ≥ 1` elements, so `fuel = xs.length` is never exhausted, and
`chunksExactGo_fuel` below shows the result does not depend on the fuel. -/
def chunksExactGo (c : ℕ) : ℕ → List ℚ → List (List ℚ)
  | 0, _ => []
  | fuel + 1, xs =>
    if xs.length < c then []
    else xs.take c :: chunksExactGo c fuel (xs.drop c)

/-- Semantics of Rust `slice::chunks_exact(c)`: the list of consecutive
complete chunks of length `c`; a trailing remainder shorter than `c` is
not produced.  (`c = 0` panics in Rust and is unreachable here: `update`
guards `channels == 0` before downmixing.) -/
def chunksExact (c : ℕ) (xs : List ℚ) : List (List ℚ) :=
  if c = 0 then [] else chunksExactGo c xs.length xs

/-- The downmix of spectrum.rs lines 36-39: average each complete
interleaved frame of `channels` samples into one mono sample. -/
def monoMix (samples : List ℚ) (channels : ℕ) : List ℚ :=
  (chunksExact channels samples).map (fun frame => frame.sum / (channels : ℚ))

/-- Fuel bound for the band-building loop.  Each iteration multiplies the
running frequency by at least 1.05 starting from 20, so fewer than 150
iterations reach 20000; 2000 is never exhausted. -/
def BAND_FUEL : ℕ := 2000

/-- The band-table loop of spectrum.rs lines 25-30: starting from the
current `freq`, while `freq < 20000` push the band
`(freq, min (max (freq * 1.05) (freq + res)) 20000)` and advance `freq`
to the uncapped upper edge. -/
def bandLoop (res : ℚ) : ℚ → ℕ → List (ℚ × ℚ)
  | _, 0 => []
  | freq, fuel + 1 =>
    if freq < 20000 then
      let next := max (freq * 1.05) (freq + res)
      (freq, min next 20000) :: bandLoop res next fuel
    else []

/-- Semantics of Rust `Vec::resize(n, v)`: truncate to `n` when shorter,
otherwise extend with copies of `v`; existing elements are kept. -/
def listResize (xs : List ℚ) (n : ℕ) (v : ℚ) : List ℚ :=
  if n ≤ xs.length then xs.take n
  else xs ++ List.replicate (n - xs.length) v

/-- The sample-rate-change rebuild of spectrum.rs lines 21-34: when the
observed rate differs from the stored one, store it, rebuild the band
table with `freq_resolution = sample_rate / fft_size`, and `resize` the
peaks (fill `1e-3`) and bins (fill `0`) to the new band count. -/
def applyRebuild (st : SpectrumState) (sample_rate : ℕ) (fft_size : ℕ) :
    SpectrumState :=
  if st.sample_rate ≠ sample_rate then
    let freq_resolution := (sample_rate : ℚ) / (fft_size : ℚ)
    let bands := bandLoop freq_resolution 20 BAND_FUEL
    let n := bands.length
    { st with
      sample_rate := sample_rate
      bands := bands
      band_peaks := listResize st.band_peaks n (1e-3)
      bins := listResize st.bins n 0 }
  else st

/-- The shared peekable iterator walk of spectrum.rs lines 73-84 for one
band `[lo, hi)`: components below `lo` are consumed and dropped,
components in `[lo, hi)` are consumed and accumulated into `sum` and
`count`, and the walk stops at the first component at or above `hi`,
leaving it (and the rest of the data) for the next band. -/
def consumeBand (lo hi : ℚ) (sum : ℚ) (count : ℕ) :
    List (ℚ × ℚ) → ℚ × ℕ × List (ℚ × ℚ)
  | [] => (sum, count, [])
  | (f, m) :: rest =>
    if f < lo then consumeBand lo hi sum count rest
    else if f < hi then consumeBand lo hi (sum + m) (count + 1) rest
    else (sum, count, (f, m) :: rest)

/-- The per-band loop of spectrum.rs lines 68-103 over parallel `bands`,
`band_peaks` and `bins` lists (equal lengths by the data-model
invariant), threading the spectrum data iterator: band average, the
`normalized` magnitude, instant-attack / slow-release peak update,
clamped `relative` value, and the asymmetric bin envelope.  Returns the
updated `(band_peaks, bins)`. -/
def bandsLoop (decay half : ℚ) :
    List (ℚ × ℚ) → List ℚ → List ℚ → List (ℚ × ℚ) → List ℚ × List ℚ
  | [], peaks, bins, _ => (peaks, bins)
  | _ :: _, [], bins, _ => ([], bins)
  | _ :: _, peaks, [], _ => (peaks, [])
  | band :: bandsRest, peak :: peaksRest, bin :: binsRest, data =>
    let r := consumeBand band.1 band.2 0 0 data
    let mag := if 0 < r.2.1 then r.1 / (r.2.1 : ℚ) else 0
    let normalized := mag / half
    let newPeak := if normalized > peak then normalized
      else max (peak * 0.99) (1e-3)
    let relative := min (max (normalized / newPeak) 0) 1
    let newBin := if relative > bin then relative else bin * decay
    let tl := bandsLoop decay half bandsRest peaksRest binsRest r.2.2
    (newPeak :: tl.1, newBin :: tl.2)

/-- `SpectrumState::update` (spectrum.rs lines 14-104).  The external
spectral transform — `hann_window` followed by `samples_fft_to_spectrum`
with range 20-20000 Hz, both from the third-party `spectrum_analyzer`
crate — is abstracted as the parameter `fft`, mapping the analysis
window and the sample rate to `some` sorted `(frequency, magnitude)`
data, or `none` when the transform fails. -/
def update (fft : List ℚ → ℕ → Option (List (ℚ × ℚ)))
    (st : SpectrumState) (samples : List ℚ) (channels : ℕ)
    (sample_rate : ℕ) : SpectrumState :=
  if channels = 0 ∨ sample_rate = 0 then st
  else
    let fft_size := TAP_BUFFER_CAPACITY / channels
    let st1 := applyRebuild st sample_rate fft_size
    let mono := monoMix samples channels
    if mono.length < fft_size then
      { st1 with bins := st1.bins.map (· * st1.decay_factor) }
    else
      let windowed := mono.drop (mono.length - fft_size)
      match fft windowed sample_rate with
      | none => { st1 with bins := st1.bins.map (· * st1.decay_factor) }
      | some data =>
        let out := bandsLoop st1.decay_factor ((fft_size : ℚ) / 2)
          st1.bands st1.band_peaks st1.bins data
        { st1 with band_peaks := out.1, bins := out.2 }

/-- A transform oracle that always fails, exercising the `Err` path of
`samples_fft_to_spectrum` (e.g. a malformed input size). -/
def fftFail : List ℚ → ℕ → Option (List (ℚ × ℚ)) := fun _ _ => none

/-- A transform oracle that always succeeds with one spectral component
at 30 Hz of magnitude 8, exercising the main banding path. -/
def fftConst : List ℚ → ℕ → Option (List (ℚ × ℚ)) := fun _ _ => some [(30, 8)]

/-- A well-formed concrete spectrum state: one band covering the whole
range, one bin at 1, peak at the 1e-3 floor, decay 1/2, rate 44100. -/
def stEx : SpectrumState := ⟨[1], 1/2, [(20, 20000)], [1e-3], 44100⟩

/-- The `Default` state of spectrum.rs lines 107-117 with decay factor 1:
empty tables and stored sample rate 0, so any observed rate triggers a
band-table rebuild. -/
def stFresh : SpectrumState := ⟨[], 1, [], [], 0⟩

/-- A state with a nonzero bin and a peak above the floor but stored
sample rate 0, used to observe what a rebuild keeps. -/
def stRetain : SpectrumState := ⟨[5], 1, [], [7], 0⟩

/-- Closed form of `get_latest`: whatever the request and backlog, the
returned sequence is the freshest `min amount capacity` samples of the
queue (all of it when fewer are buffered), and the backlog is emptied. -/
theorem get_latest_spec (t : TapModel) (amount : ℕ) :
    t.get_latest amount =
      (t.queue.drop (t.queue.length - min amount t.capacity),
       { t with queue := [] }) := by
  obtain ⟨cap, q⟩ := t
  simp only [TapModel.get_latest]
  by_cases h0 : q.length = 0
  · rw [if_pos h0]
    rw [List.length_eq_zero] at h0
    subst h0
    simp
  · rw [if_neg h0]
    by_cases h1 : min amount cap < q.length
    · rw [if_pos h1]
      have ha : q.length - (q.length - min amount cap) = min amount cap := by
        omega
      simp only [List.length_drop, ha, min_self]
      by_cases h2 : min amount cap = 0
      · rw [if_pos h2, h2]
        simp
      · rw [if_neg h2]
        have hlen : (q.drop (q.length - min amount cap)).length
            = min amount cap := by
          simp only [List.length_drop]
          omega
        rw [List.take_of_length_le (le_of_eq hlen),
          List.drop_eq_nil_of_le (le_of_eq hlen)]
    · rw [if_neg h1]
      rw [min_eq_left (by omega : q.length ≤ min amount cap)]
      rw [if_neg h0]
      rw [List.take_length, List.drop_length,
        Nat.sub_eq_zero_of_le (by omega), List.drop_zero]

/-- Claim C3: with zero free slots `Writer.push` drops the whole batch;
otherwise it appends exactly the newest `min(len, free)` samples of the
batch in their original order — discarding only the oldest `len - free`
samples of that same batch — and after any push the queued count never
exceeds the channel capacity. -/
theorem push_drop_policy (t : TapModel) (s : List ℚ)
    (hinv : t.queue.length ≤ t.capacity) :
    (t.capacity - t.queue.length = 0 → t.push s = t) ∧
    (t.capacity - t.queue.length ≠ 0 →
      (t.push s).queue =
        t.queue ++
          s.drop (s.length - min s.length (t.capacity - t.queue.length))) ∧
    (t.push s).queue.length ≤ t.capacity ∧
    (t.push s).capacity = t.capacity := by
  obtain ⟨cap, q⟩ := t
  simp only [TapModel.push]
  by_cases h : cap - q.length = 0
  · rw [if_pos h]
    exact ⟨fun _ => rfl, fun hc => absurd h hc, by simpa using hinv, rfl⟩
  · rw [if_neg h]
    refine ⟨fun hc => absurd hc h, fun _ => rfl, ?_, rfl⟩
    simp only [List.length_append, List.length_drop]
    omega

/-- Witness for C3: capacity 4, two queued samples, a three-sample batch:
the newest two samples of the batch are appended. -/
theorem push_drop_policy_witness :
    (TapModel.push ⟨4, [1, 2]⟩ [3, 4, 5]).queue = [1, 2, 4, 5] :=
  ((push_drop_policy ⟨4, [1, 2]⟩ [3, 4, 5] (by decide)).2.1
    (by decide)).trans (by decide)

/-- Claim C4: `Reader.get_latest` clamps the request to the declared
capacity; when the backlog exceeds the clamp it discards the oldest
excess and returns exactly the clamped amount of freshest samples in
order; when fewer samples are queued than requested it returns exactly
the queued samples; the result never exceeds the clamp (never padded,
never an error). -/
theorem get_latest_clamp_policy (t : TapModel) (amount : ℕ)
    (hinv : t.queue.length ≤ t.capacity) :
    (min amount t.capacity < t.queue.length →
      (t.get_latest amount).1 =
        t.queue.drop (t.queue.length - min amount t.capacity) ∧
      (t.get_latest amount).1.length = min amount t.capacity) ∧
    (t.queue.length < amount → (t.get_latest amount).1 = t.queue) ∧
    (t.get_latest amount).1.length ≤ min amount t.capacity := by
  rw [get_latest_spec]
  refine ⟨fun h => ⟨rfl, by simp only [List.length_drop]; omega⟩,
    fun h => ?_, by simp only [List.length_drop]; omega⟩
  rw [Nat.sub_eq_zero_of_le (by omega), List.drop_zero]

/-- Witness for C4: four queued samples, request 2: the freshest two come
back in order. -/
theorem get_latest_clamp_witness :
    ((TapModel.get_latest ⟨4, [1, 2, 3, 4]⟩ 2).1 = [3, 4]) :=
  (((get_latest_clamp_policy ⟨4, [1, 2, 3, 4]⟩ 2 (by decide)).1
    (by decide)).1).trans (by decide)

/-- Claim C5: a batch no larger than the free capacity pushed and then
read back with `get_latest` of its own length comes back exactly,
element for element, in original order. -/
theorem push_get_latest_roundtrip (t : TapModel) (s : List ℚ)
    (hfree : s.length ≤ t.capacity - t.queue.length)
    (hcap : s.length ≤ t.capacity) :
    ((t.push s).get_latest s.length).1 = s := by
  obtain ⟨cap, q⟩ := t
  dsimp only at hfree hcap
  simp only [TapModel.push]
  by_cases h : cap - q.length = 0
  · rw [if_pos h]
    have hs : s = [] := by
      rw [← List.length_eq_zero]
      omega
    subst hs
    rw [get_latest_spec]
    simp
  · rw [if_neg h]
    rw [get_latest_spec]
    simp only [min_eq_left hfree, Nat.sub_self, List.drop_zero,
      List.length_append, min_eq_left hcap]
    rw [show q.length + s.length - s.length = q.length from by omega,
      List.drop_left]

/-- Witness for C5: one sample queued in a capacity-4 channel, the pushed
pair [1, 2] round-trips exactly. -/
theorem push_get_latest_roundtrip_witness :
    ((TapModel.push ⟨4, [9]⟩ [1, 2]).get_latest 2).1 = [1, 2] :=
  push_get_latest_roundtrip ⟨4, [9]⟩ [1, 2] (by decide) (by decide)

/-- Claim C9: every `get_latest` call removes the entire backlog that was
queued at the time of the call — each queued sample is either returned
or discarded, so the channel is empty immediately afterwards — and
`get_latest 0` returns the empty sequence while still discarding the
whole backlog. -/
theorem get_latest_drains (t : TapModel) (amount : ℕ) :
    (t.get_latest amount).2.queue = [] ∧ (t.get_latest 0).1 = [] := by
  rw [get_latest_spec, get_latest_spec]
  exact ⟨rfl, by simp⟩

/-- A rebuild never touches the decay factor. -/
theorem applyRebuild_decay (st : SpectrumState) (sample_rate fft_size : ℕ) :
    (applyRebuild st sample_rate fft_size).decay_factor = st.decay_factor := by
  rw [applyRebuild]
  split_ifs <;> rfl

/-- No rebuild happens when the observed sample rate equals the stored
one. -/
theorem applyRebuild_self (st : SpectrumState) (sample_rate fft_size : ℕ)
    (h : st.sample_rate = sample_rate) :
    applyRebuild st sample_rate fft_size = st := by
  rw [applyRebuild, if_neg (not_not_intro h)]

/-- Claim C7: `update` with zero channels or a zero sample rate leaves
the whole `SpectrumState` — bins, band edges, band peaks, stored sample
rate and decay factor — unchanged. -/
theorem update_guard (fft : List ℚ → ℕ → Option (List (ℚ × ℚ)))
    (st : SpectrumState) (samples : List ℚ) (channels sample_rate : ℕ)
    (h : channels = 0 ∨ sample_rate = 0) :
    update fft st samples channels sample_rate = st := by
  rw [update, if_pos h]

/-- Witness for C7: a zero channel count leaves the state untouched. -/
theorem update_guard_witness :
    ((0 : ℕ) = 0 ∨ (44100 : ℕ) = 0) ∧
    update fftFail stEx [] 0 44100 = stEx :=
  ⟨Or.inl rfl, update_guard fftFail stEx [] 0 44100 (Or.inl rfl)⟩

/-- Claim C6 (amended): when channels and sampleRate are nonzero and the
sampleRate equals the stored one (so no band-table rebuild occurs in the
same call), an update with fewer mono samples than the analysis window
multiplies every existing bin by the decay factor and changes nothing
else — band edges, band peaks, stored sample rate and decay factor are
unchanged. -/
theorem update_underrun_decay (fft : List ℚ → ℕ → Option (List (ℚ × ℚ)))
    (st : SpectrumState) (samples : List ℚ) (channels sample_rate : ℕ)
    (hc : channels ≠ 0) (hr : sample_rate ≠ 0)
    (hsr : st.sample_rate = sample_rate)
    (hlen : (monoMix samples channels).length <
      TAP_BUFFER_CAPACITY / channels) :
    update fft st samples channels sample_rate =
      { st with bins := st.bins.map (· * st.decay_factor) } := by
  simp only [update]
  rw [if_neg (by simp [hc, hr]), applyRebuild_self st sample_rate _ hsr,
    if_pos hlen]

/-- Witness for C6: a same-rate underrun call on `stEx` halves its single
bin and leaves everything else alone. -/
theorem update_underrun_decay_witness :
    update fftFail stEx [] 1 44100 =
      ⟨[1 / 2], 1 / 2, [(20, 20000)], [1e-3], 44100⟩ :=
  (update_underrun_decay fftFail stEx [] 1 44100 (by decide) (by decide)
    rfl (by decide)).trans (by decide)

/-- Counterexample to C6 as stated: an underrun call whose sample rate
differs from the stored one still rebuilds the band table, so the band
edges and the stored rate change even though the mono sample count is
below the analysis window. -/
theorem update_underrun_not_only_decay :
    (monoMix [] 1).length < TAP_BUFFER_CAPACITY / 1 ∧
    (update fftFail stFresh [] 1 100000000).bands ≠ stFresh.bands ∧
    (update fftFail stFresh [] 1 100000000).sample_rate ≠
      stFresh.sample_rate := by
  decide

/-- Claim C2 (amended): a call with nonzero channels and a nonzero sample
rate different from the stored one rebuilds the band table by the
edge-advance rule — from 20 Hz, next edge
= max(freq * 1.05, freq + sampleRate / windowLength), capped at
20000 Hz — and *resizes* `bins` and `band_peaks` to the new band count:
slots added beyond the old length are initialized to 0 and 1e-3
respectively, while slots carried over keep their previous values.
Stated on the underrun path, where the resized bins are then multiplied
once by the decay factor and the resized peaks are returned as is. -/
theorem update_rate_change_rebuild
    (fft : List ℚ → ℕ → Option (List (ℚ × ℚ))) (st : SpectrumState)
    (samples : List ℚ) (channels sample_rate : ℕ)
    (hc : channels ≠ 0) (hr : sample_rate ≠ 0)
    (hsr : st.sample_rate ≠ sample_rate)
    (hlen : (monoMix samples channels).length <
      TAP_BUFFER_CAPACITY / channels) :
    update fft st samples channels sample_rate =
      { bins := (listResize st.bins
            (bandLoop ((sample_rate : ℚ) /
              ((TAP_BUFFER_CAPACITY / channels : ℕ) : ℚ)) 20
              BAND_FUEL).length 0).map (· * st.decay_factor)
        decay_factor := st.decay_factor
        bands := bandLoop ((sample_rate : ℚ) /
          ((TAP_BUFFER_CAPACITY / channels : ℕ) : ℚ)) 20 BAND_FUEL
        band_peaks := listResize st.band_peaks
          (bandLoop ((sample_rate : ℚ) /
            ((TAP_BUFFER_CAPACITY / channels : ℕ) : ℚ)) 20
            BAND_FUEL).length (1e-3)
        sample_rate := sample_rate } := by
  simp only [update, applyRebuild]
  rw [if_neg (by simp [hc, hr]), if_pos hsr, if_pos hlen]

/-- Witness for C2: on `stRetain` with one resulting band, the old bin 5
and the old peak 7 survive the rebuild (decay factor is 1). -/
theorem update_rate_change_rebuild_witness :
    update fftFail stRetain [] 1 100000000 =
      ⟨[5], 1, [(20, 20000)], [7], 100000000⟩ :=
  (update_rate_change_rebuild fftFail stRetain [] 1 100000000 (by decide)
    (by decide) (by decide) (by decide)).trans (by decide)

/-- Counterexample to C2 as stated: after the sample-rate-change rebuild
the bins are not all 0 and the band peaks are not all 1e-3 —
`Vec::resize` keeps the values already present (decay factor 1 rules the
underrun decay out as the cause). -/
theorem update_rate_change_no_reset :
    stRetain.sample_rate ≠ 100000000 ∧
    ¬ (∀ b ∈ (update fftFail stRetain [] 1 100000000).bins, b = 0) ∧
    ¬ (∀ p ∈ (update fftFail stRetain [] 1 100000000).band_peaks,
        p = 1e-3) := by
  decide

/-- Claim C1 (amended): on every input on which the spectral transform
fails, `update` skips the spectrum computation for that tick and no
error propagates — band edges, band peaks, stored sample rate and decay
factor are retained — but each bin is multiplied once by the decay
factor (the same treatment as a buffer underrun) instead of being
retained unchanged. -/
theorem update_transform_failure
    (fft : List ℚ → ℕ → Option (List (ℚ × ℚ))) (st : SpectrumState)
    (samples : List ℚ) (channels sample_rate : ℕ)
    (hc : channels ≠ 0) (hr : sample_rate ≠ 0)
    (hlen : ¬ (monoMix samples channels).length <
      TAP_BUFFER_CAPACITY / channels)
    (hfft : fft ((monoMix samples channels).drop
        ((monoMix samples channels).length -
          TAP_BUFFER_CAPACITY / channels)) sample_rate = none) :
    update fft st samples channels sample_rate =
      { applyRebuild st sample_rate (TAP_BUFFER_CAPACITY / channels) with
        bins := (applyRebuild st sample_rate
            (TAP_BUFFER_CAPACITY / channels)).bins.map
          (· * (applyRebuild st sample_rate
            (TAP_BUFFER_CAPACITY / channels)).decay_factor) } := by
  simp only [update]
  rw [if_neg (by simp [hc, hr]), if_neg hlen, hfft]

set_option maxRecDepth 40000 in
/-- Witness for C1: 255-channel input of 1020 zeros fills the 4-sample
analysis window, the transform fails, and the single bin halves. -/
theorem update_transform_failure_witness :
    update fftFail stEx (List.replicate 1020 0) 255 44100 =
      ⟨[1 / 2], 1 / 2, [(20, 20000)], [1e-3], 44100⟩ :=
  (update_transform_failure fftFail stEx (List.replicate 1020 0) 255 44100
    (by decide) (by decide) (by decide) rfl).trans (by decide)

set_option maxRecDepth 40000 in
/-- Counterexample to C1 as stated: the sample rate equals the stored one
(so the state before the failed transform is exactly `stEx`), the
analysis window is filled and the transform fails, yet the state after
the call differs from the call's input state: the bins were decayed. -/
theorem update_transform_failure_changes_state :
    stEx.sample_rate = 44100 ∧
    ¬ (monoMix (List.replicate 1020 0) 255).length <
      TAP_BUFFER_CAPACITY / 255 ∧
    fftFail ((monoMix (List.replicate 1020 0) 255).drop
      ((monoMix (List.replicate 1020 0) 255).length -
        TAP_BUFFER_CAPACITY / 255)) 44100 = none ∧
    update fftFail stEx (List.replicate 1020 0) 255 44100 ≠ stEx := by
  decide

/-- The fuel of `chunksExactGo` is irrelevant once it covers the input
length. -/
theorem chunksExactGo_fuel (c : ℕ) (hc : c ≠ 0) :
    ∀ f1 f2 (xs : List ℚ), xs.length ≤ f1 → xs.length ≤ f2 →
      chunksExactGo c f1 xs = chunksExactGo c f2 xs := by
  intro f1
  induction f1 with
  | zero =>
    intro f2 xs h1 h2
    have hxs : xs = [] := List.eq_nil_of_length_eq_zero (by omega)
    subst hxs
    cases f2 with
    | zero => rfl
    | succ m => simp [chunksExactGo, Nat.pos_of_ne_zero hc]
  | succ n ih =>
    intro f2 xs h1 h2
    cases f2 with
    | zero =>
      have hxs : xs = [] := List.eq_nil_of_length_eq_zero (by omega)
      subst hxs
      simp [chunksExactGo, Nat.pos_of_ne_zero hc]
    | succ m =>
      simp only [chunksExactGo]
      by_cases hlt : xs.length < c
      · rw [if_pos hlt, if_pos hlt]
      · rw [if_neg hlt, if_neg hlt]
        have hdl : (xs.drop c).length = xs.length - c :=
          List.length_drop ..
        exact congrArg (xs.take c :: ·)
          (ih m (xs.drop c) (by omega) (by omega))

/-- The Rust-loop unfolding rule for `chunksExact` with a nonzero chunk
size: stop below `c` remaining elements, else one chunk and recurse. -/
theorem chunksExact_eq (c : ℕ) (hc : c ≠ 0) (xs : List ℚ) :
    chunksExact c xs =
      if xs.length < c then []
      else xs.take c :: chunksExact c (xs.drop c) := by
  simp only [chunksExact, if_neg hc]
  cases xs with
  | nil => simp [chunksExactGo, Nat.pos_of_ne_zero hc]
  | cons a tl =>
    simp only [List.length_cons, chunksExactGo]
    by_cases hlt : tl.length + 1 < c
    · rw [if_pos hlt, if_pos hlt]
    · rw [if_neg hlt, if_neg hlt]
      refine congrArg ((a :: tl).take c :: ·) ?_
      refine chunksExactGo_fuel c hc tl.length ((a :: tl).drop c).length
        ((a :: tl).drop c) ?_ le_rfl
      simp only [List.length_drop, List.length_cons]
      omega

/-- A remainder shorter than the chunk size contributes no chunk. -/
theorem chunksExact_append (c : ℕ) (hc : c ≠ 0) :
    ∀ n (xs ys : List ℚ), xs.length = n → c ∣ xs.length →
      ys.length < c → chunksExact c (xs ++ ys) = chunksExact c xs := by
  intro n
  induction n using Nat.strong_induction_on with
  | _ n ih =>
    intro xs ys hn hdvd hrem
    by_cases h0 : xs.length < c
    · have hxs : xs = [] :=
        List.eq_nil_of_length_eq_zero (Nat.eq_zero_of_dvd_of_lt hdvd h0)
      subst hxs
      rw [List.nil_append, chunksExact_eq c hc ys, if_pos hrem,
        chunksExact_eq c hc [], if_pos (by simpa using Nat.pos_of_ne_zero hc)]
    · push_neg at h0
      rw [chunksExact_eq c hc (xs ++ ys), chunksExact_eq c hc xs,
        if_neg (by simp only [List.length_append]; omega), if_neg (by omega),
        List.take_append_of_le_length h0, List.drop_append_of_le_length h0]
      refine congrArg (xs.take c :: ·) ?_
      refine ih (xs.drop c).length ?_ (xs.drop c) ys rfl ?_ hrem
      · simp only [List.length_drop]
        omega
      · simp only [List.length_drop]
        exact Nat.dvd_sub' hdvd dvd_rfl

/-- `chunksExact` produces exactly ⌊length / c⌋ chunks. -/
theorem chunksExact_length (c : ℕ) (hc : c ≠ 0) :
    ∀ n (xs : List ℚ), xs.length = n →
      (chunksExact c xs).length = xs.length / c := by
  intro n
  induction n using Nat.strong_induction_on with
  | _ n ih =>
    intro xs hn
    by_cases h0 : xs.length < c
    · rw [chunksExact_eq c hc, if_pos h0]
      simp [Nat.div_eq_of_lt h0]
    · push_neg at h0
      rw [chunksExact_eq c hc, if_neg (by omega)]
      simp only [List.length_cons]
      rw [ih (xs.drop c).length (by simp only [List.length_drop]; omega)
        (xs.drop c) rfl]
      simp only [List.length_drop]
      rw [Nat.div_eq_sub_div (Nat.pos_of_ne_zero hc) h0]

/-- Claim C10: the downmix uses only complete frames — a trailing
remainder shorter than channelCount contributes neither to the mono
signal nor to the mono sample count used by the underrun test, and that
count is the floor of sampleCount / channelCount. -/
theorem monoMix_complete_frames (xs ys : List ℚ) (c : ℕ) (hc : c ≠ 0)
    (hdvd : c ∣ xs.length) (hrem : ys.length < c) :
    monoMix (xs ++ ys) c = monoMix xs c ∧
    (monoMix (xs ++ ys) c).length = (xs ++ ys).length / c := by
  constructor
  · rw [monoMix, monoMix,
      chunksExact_append c hc xs.length xs ys rfl hdvd hrem]
  · rw [monoMix, List.length_map,
      chunksExact_length c hc (xs ++ ys).length (xs ++ ys) rfl]

/-- Witness for C10: an odd single-sample remainder after two stereo
frames changes nothing about the downmix. -/
theorem monoMix_complete_frames_witness :
    monoMix ([1, 2, 3, 4] ++ [5]) 2 = monoMix [1, 2, 3, 4] 2 ∧
    (monoMix ([1, 2, 3, 4] ++ [5]) 2).length =
      (([1, 2, 3, 4] ++ [5] : List ℚ)).length / 2 :=
  monoMix_complete_frames [1, 2, 3, 4] [5] 2 (by decide) (by decide)
    (by decide)

/-- An element of a resized list is an element of the original list or
the fill value. -/
theorem listResize_mem (xs : List ℚ) (n : ℕ) (v b : ℚ)
    (hb : b ∈ listResize xs n v) : b ∈ xs ∨ b = v := by
  rw [listResize] at hb
  split_ifs at hb with h
  · exact Or.inl (List.take_subset _ _ hb)
  · rcases List.mem_append.mp hb with h1 | h2
    · exact Or.inl h1
    · exact Or.inr (List.eq_of_mem_replicate h2)

/-- A bin of the rebuilt state is a bin of the input state or the fill
value 0. -/
theorem applyRebuild_bins (st : SpectrumState) (sample_rate fft_size : ℕ)
    (b : ℚ) (hb : b ∈ (applyRebuild st sample_rate fft_size).bins) :
    b ∈ st.bins ∨ b = 0 := by
  rw [applyRebuild] at hb
  split_ifs at hb with h
  · exact listResize_mem _ _ _ _ hb
  · exact Or.inl hb

/-- The asymmetric envelope step keeps a bin in `[0, 1]`: either it
snaps to the clamped `relative` value or it decays multiplicatively. -/
theorem envelopeStep_bounded (x bin decay : ℚ)
    (hd0 : 0 ≤ decay) (hd1 : decay ≤ 1) (hbin : 0 ≤ bin ∧ bin ≤ 1) :
    0 ≤ (if min (max x 0) 1 > bin then min (max x 0) 1
      else bin * decay) ∧
    (if min (max x 0) 1 > bin then min (max x 0) 1
      else bin * decay) ≤ 1 := by
  split_ifs with h
  · exact ⟨le_min (le_max_right _ _) zero_le_one, min_le_right _ _⟩
  · exact ⟨mul_nonneg hbin.1 hd0, mul_le_one₀ hbin.2 hd0 hd1⟩

/-- Every bin the per-band loop leaves behind is in `[0, 1]`: it is
either the clamped `relative` value, a decayed old bin, or an untouched
old bin. -/
theorem bandsLoop_bins_bounded (decay half : ℚ)
    (hd0 : 0 ≤ decay) (hd1 : decay ≤ 1) :
    ∀ (bands : List (ℚ × ℚ)) (peaks bins : List ℚ)
      (data : List (ℚ × ℚ)),
      (∀ b ∈ bins, 0 ≤ b ∧ b ≤ 1) →
      ∀ b ∈ (bandsLoop decay half bands peaks bins data).2,
        0 ≤ b ∧ b ≤ 1
  | [], peaks, bins, data, hb => by simpa [bandsLoop] using hb
  | _ :: _, [], bins, data, hb => by simpa [bandsLoop] using hb
  | _ :: _, _ :: _, [], data, hb => by simp [bandsLoop]
  | band :: bandsRest, peak :: peaksRest, bin :: binsRest, data, hb => by
    intro b hbm
    simp only [bandsLoop] at hbm
    rcases List.mem_cons.mp hbm with hbeq | hbtl
    · rw [hbeq]
      exact envelopeStep_bounded _ bin decay hd0 hd1
        (hb bin (List.mem_cons_self _ _))
    · exact bandsLoop_bins_bounded decay half hd0 hd1 bandsRest peaksRest
        binsRest _ (fun x hx => hb x (List.mem_cons_of_mem _ hx)) b hbtl

/-- Claim C8: starting from a state whose bins all lie in [0, 1] and
whose decay factor lies in [0, 1], any `update` call — whatever the
samples, channel count, sample rate and spectral data — leaves every bin
in [0, 1]. -/
theorem update_bins_bounded (fft : List ℚ → ℕ → Option (List (ℚ × ℚ)))
    (st : SpectrumState) (samples : List ℚ) (channels sample_rate : ℕ)
    (hbins : ∀ b ∈ st.bins, 0 ≤ b ∧ b ≤ 1)
    (hd0 : 0 ≤ st.decay_factor) (hd1 : st.decay_factor ≤ 1) :
    ∀ b ∈ (update fft st samples channels sample_rate).bins,
      0 ≤ b ∧ b ≤ 1 := by
  have hreb : ∀ b ∈ (applyRebuild st sample_rate
      (TAP_BUFFER_CAPACITY / channels)).bins, 0 ≤ b ∧ b ≤ 1 := by
    intro b hb
    rcases applyRebuild_bins st sample_rate _ b hb with h | h
    · exact hbins b h
    · rw [h]
      exact ⟨le_refl 0, zero_le_one⟩
  have hdec := applyRebuild_decay st sample_rate
    (TAP_BUFFER_CAPACITY / channels)
  have hmap : ∀ b ∈ (applyRebuild st sample_rate
      (TAP_BUFFER_CAPACITY / channels)).bins.map
        (· * (applyRebuild st sample_rate
          (TAP_BUFFER_CAPACITY / channels)).decay_factor),
      0 ≤ b ∧ b ≤ 1 := by
    intro b hb
    rcases List.mem_map.mp hb with ⟨a, ha, rfl⟩
    rw [hdec]
    have ha2 := hreb a ha
    exact ⟨mul_nonneg ha2.1 hd0, mul_le_one₀ ha2.2 hd0 hd1⟩
  simp only [update]
  split_ifs with hg hlen
  · exact hbins
  · exact hmap
  · split
    · exact hmap
    · exact bandsLoop_bins_bounded _ _ (by rw [hdec]; exact hd0)
        (by rw [hdec]; exact hd1) _ _ _ _ hreb

/-- Witness for C8: a successful transform delivering one component at
30 Hz with magnitude 8 keeps the single bin of `stEx` inside [0, 1]. -/
theorem update_bins_bounded_witness :
    (∀ b ∈ stEx.bins, 0 ≤ b ∧ b ≤ 1) ∧
    (∀ b ∈ (update fftConst stEx (List.replicate 1020 0) 255 44100).bins,
      0 ≤ b ∧ b ≤ 1) :=
  ⟨by decide, update_bins_bounded fftConst stEx (List.replicate 1020 0)
    255 44100 (by decide) (by decide) (by decide)⟩

end NoctaVox
